import Mathlib

/-!
Verification of the apsis core: the Experiment state machine
(`apsis/models/experiment.py`), the ExperimentAssistant orchestration
(`apsis/assistants/experiment_assistant.py`), and the acquisition-function
proposal engine (`apsis/optimizers/bayesian/acquisition_functions.py`).

Numeric results and acquisition scores handled by the queue/proposal control
flow are modelled as rationals (exact arithmetic stand-in for Python floats);
the Expected-Improvement / Probability-of-Improvement formulas, which involve
square roots and the normal CDF/PDF, are modelled over the reals with the
scipy `norm().cdf` / `norm().pdf` calls abstracted as oracle functions.
-/

namespace Apsis

/-- Modelled from the spec: `Candidate` (its source file `candidate.py` is not
part of the sources at hand) is a point in parameter space with an immutable
identity generated at creation and an optional numeric `result`
("A Candidate with `result = None` denotes 'not yet evaluated.'").
The parameter dictionary plays no role in the claims below and is elided;
the identity is a natural number. -/
structure Candidate where
  id : Nat
  result : Option ℚ
deriving DecidableEq, Repr

/-- The Experiment state: the three candidate queues, the running best
candidate and the optimization direction
(`Experiment.__init__` in `experiment.py`). The parameter definitions play no
role in the state-machine claims and are elided. -/
structure Exp where
  candidates_pending : List Candidate
  candidates_working : List Candidate
  candidates_finished : List Candidate
  best_candidate : Option Candidate
  minimization_problem : Bool
deriving DecidableEq, Repr

/-- A fresh Experiment: all three queues empty, no best candidate
(`Experiment.__init__`). -/
def initExp (minimization : Bool) : Exp :=
  { candidates_pending := []
    candidates_working := []
    candidates_finished := []
    best_candidate := none
    minimization_problem := minimization }

/-- Python's `if c in l: l.remove(c)`: remove the first occurrence of `c`
from `l`, leaving `l` unchanged when `c` is absent. -/
def removeFirst (l : List Candidate) (c : Candidate) : List Candidate :=
  match l with
  | [] => []
  | x :: xs => if x = c then xs else x :: removeFirst xs c

/-- `Experiment.better_cand(candidateA, candidateB)`: the direction-aware
comparison.  `None` on either side is checked first (A `None` loses, B `None`
is always beaten), then `None` results, then numeric comparison in the
direction given by `minimization_problem`.  The `isinstance` validation is
rendered moot by typing the arguments as `Option Candidate`. -/
def betterCand (minimization : Bool) (candidateA candidateB : Option Candidate) : Bool :=
  match candidateA with
  | none => false
  | some ca =>
    match candidateB with
    | none => true
    | some cb =>
      match ca.result with
      | none => false
      | some aResult =>
        match cb.result with
        | none => true
        | some bResult =>
          if minimization then
            decide (aResult < bResult)
          else
            decide (aResult > bResult)

/-- `Experiment.add_pending(candidate)`: append to the pending queue. -/
def addPending (e : Exp) (c : Candidate) : Exp :=
  { e with candidates_pending := e.candidates_pending ++ [c] }

/-- `Experiment.add_working(candidate)`: remove from pending if present,
then append to the working queue (no membership check on the working queue
itself). -/
def addWorking (e : Exp) (c : Candidate) : Exp :=
  { e with
    candidates_pending := removeFirst e.candidates_pending c
    candidates_working := e.candidates_working ++ [c] }

/-- `Experiment.add_pausing(candidate)`: remove from working if present,
then append to the pending queue. -/
def addPausing (e : Exp) (c : Candidate) : Exp :=
  { e with
    candidates_working := removeFirst e.candidates_working c
    candidates_pending := e.candidates_pending ++ [c] }

/-- `Experiment.add_finished(candidate)`: remove from pending and working if
present, append to the finished queue, and promote `best_candidate` when it
was `None` or the new candidate is strictly better. -/
def addFinished (e : Exp) (c : Candidate) : Exp :=
  { e with
    candidates_pending := removeFirst e.candidates_pending c
    candidates_working := removeFirst e.candidates_working c
    candidates_finished := e.candidates_finished ++ [c]
    best_candidate :=
      if e.best_candidate = none ∨
          betterCand e.minimization_problem (some c) e.best_candidate = true then
        some c
      else
        e.best_candidate }

/-- C4: `better_cand` is the direction-aware comparison: a non-null A with a
result beats `None`; `None` never beats anything; a result-less candidate is
never better than one with a result; with two results, smaller wins iff
`minimization_problem`, larger wins otherwise, and equal results are better
in neither direction. -/
theorem c4_better_cand_ordering (minimization : Bool) (a b : Candidate)
    (ob : Option Candidate) :
    (∀ r : ℚ, a.result = some r → betterCand minimization (some a) none = true) ∧
    betterCand minimization none ob = false ∧
    (∀ r : ℚ, a.result = none → b.result = some r →
      betterCand minimization (some a) (some b) = false) ∧
    (∀ ra rb : ℚ, a.result = some ra → b.result = some rb →
      (betterCand minimization (some a) (some b) = true ↔
        (if minimization then ra < rb else rb < ra))) ∧
    (∀ ra rb : ℚ, a.result = some ra → b.result = some rb → ra = rb →
      betterCand minimization (some a) (some b) = false ∧
      betterCand minimization (some b) (some a) = false) := by
  refine ⟨?_, ?_, ?_, ?_, ?_⟩
  · intro r _
    simp [betterCand]
  · simp [betterCand]
  · intro r ha hb
    simp [betterCand, ha, hb]
  · intro ra rb ha hb
    cases minimization <;> simp [betterCand, ha, hb]
  · intro ra rb ha hb heq
    subst heq
    cases minimization <;> simp [betterCand, ha, hb]

/-- Witness for C4 at concrete inputs. -/
theorem c4_better_cand_ordering_witness :
    betterCand true (some ⟨0, some 1⟩) none = true ∧
    betterCand true none (some ⟨1, some 2⟩) = false ∧
    betterCand true (some ⟨0, none⟩) (some ⟨1, some 2⟩) = false ∧
    (betterCand true (some ⟨0, some 1⟩) (some ⟨1, some 2⟩) = true ↔
      (if true then (1:ℚ) < 2 else (2:ℚ) < 1)) ∧
    (betterCand true (some ⟨0, some 2⟩) (some ⟨1, some 2⟩) = false ∧
      betterCand true (some ⟨1, some 2⟩) (some ⟨0, some 2⟩) = false) := by
  have h := c4_better_cand_ordering true ⟨0, some 1⟩ ⟨1, some 2⟩ (some ⟨1, some 2⟩)
  have h' := c4_better_cand_ordering true ⟨0, none⟩ ⟨1, some 2⟩ none
  have h'' := c4_better_cand_ordering true ⟨0, some 2⟩ ⟨1, some 2⟩ none
  exact ⟨h.1 1 rfl, h.2.1, h'.2.2.1 2 rfl rfl, h.2.2.2.1 1 2 rfl rfl,
    h''.2.2.2.2 2 2 rfl rfl rfl⟩

/-! ### Operation sequences on an Experiment -/

/-- One mutating call on an Experiment's queues. -/
inductive ExpOp where
  | pending (c : Candidate)
  | working (c : Candidate)
  | pausing (c : Candidate)
  | finished (c : Candidate)
deriving DecidableEq, Repr

/-- The candidate an operation acts on. -/
def ExpOp.cand : ExpOp → Candidate
  | .pending c => c
  | .working c => c
  | .pausing c => c
  | .finished c => c

/-- Dispatch one operation to the corresponding Experiment method. -/
def step (e : Exp) (op : ExpOp) : Exp :=
  match op with
  | .pending c => addPending e c
  | .working c => addWorking e c
  | .pausing c => addPausing e c
  | .finished c => addFinished e c

/-- Run a sequence of queue operations on an Experiment. -/
def runOps (e : Exp) (ops : List ExpOp) : Exp :=
  ops.foldl step e

/-- `better_cand` never prefers a candidate to itself (ties are not
"better"). -/
theorem betterCand_irrefl (m : Bool) (c : Candidate) :
    betterCand m (some c) (some c) = false := by
  cases h : c.result <;> cases m <;> simp [betterCand, h]

/-- If `c` beats the current best `b` while `x` does not, then `x` does not
beat `c` either: promoting the best candidate keeps it maximal. -/
theorem betterCand_shift (m : Bool) (x c b : Candidate)
    (hcb : betterCand m (some c) (some b) = true)
    (hxb : betterCand m (some x) (some b) = false) :
    betterCand m (some x) (some c) = false := by
  cases hx : x.result with
  | none => simp [betterCand, hx]
  | some rx =>
    cases hc : c.result with
    | none => simp [betterCand, hc] at hcb
    | some rc =>
      cases hb : b.result with
      | none => simp [betterCand, hx, hb] at hxb
      | some rb =>
        cases m <;>
          simp [betterCand, hx, hc, hb] at hcb hxb ⊢ <;>
          linarith

/-- The invariant `add_finished` maintains about `best_candidate`:
it is `None` exactly while the finished queue is empty, and otherwise it is a
finished candidate that no other finished candidate beats. -/
def BestInv (e : Exp) : Prop :=
  (e.best_candidate = none ↔ e.candidates_finished = []) ∧
  (∀ b : Candidate, e.best_candidate = some b →
    b ∈ e.candidates_finished ∧
    ∀ x ∈ e.candidates_finished,
      betterCand e.minimization_problem (some x) (some b) = false)

/-- Each single queue operation preserves the best-candidate invariant. -/
theorem bestInv_step (e : Exp) (op : ExpOp) (h : BestInv e) :
    BestInv (step e op) := by
  cases op with
  | pending c => exact h
  | working c => exact h
  | pausing c => exact h
  | finished c =>
    obtain ⟨hiff, hbest⟩ := h
    cases hb : e.best_candidate with
    | none =>
      have hfin : e.candidates_finished = [] := hiff.mp hb
      constructor
      · simp [step, addFinished, hb, hfin]
      · intro b hbeq
        simp [step, addFinished, hb, hfin] at hbeq ⊢
        subst hbeq
        exact ⟨rfl, betterCand_irrefl _ _⟩
    | some b0 =>
      have hb0 := hbest b0 hb
      by_cases hcb : betterCand e.minimization_problem (some c) (some b0) = true
      · constructor
        · simp [step, addFinished, hb, hcb]
        · intro b hbeq
          simp [step, addFinished, hb, hcb] at hbeq ⊢
          subst hbeq
          refine ⟨Or.inr rfl, fun x hx => ?_⟩
          rcases hx with hx | hx
          · exact betterCand_shift _ x c b0 hcb (hb0.2 x hx)
          · subst hx
            exact betterCand_irrefl _ _
      · constructor
        · simp [step, addFinished, hb, hcb]
        · intro b hbeq
          simp [step, addFinished, hb, hcb] at hbeq ⊢
          subst hbeq
          refine ⟨Or.inl hb0.1, fun x hx => ?_⟩
          rcases hx with hx | hx
          · exact hb0.2 x hx
          · subst hx
            exact Bool.eq_false_iff.mpr hcb

/-- The best-candidate invariant holds after any run that starts in a state
satisfying it. -/
theorem bestInv_runOps (ops : List ExpOp) :
    ∀ e : Exp, BestInv e → BestInv (runOps e ops) := by
  induction ops with
  | nil => exact fun e h => h
  | cons op rest ih => exact fun e h => ih (step e op) (bestInv_step e op h)

/-- C3 (amended): after every sequence of Experiment operations,
`best_candidate` is either `None` or a member of `candidates_finished` that no
other finished candidate beats; it is `None` if and only if
`candidates_finished` is empty (a finished candidate whose result is `None`
still becomes `best_candidate` when there was none); and `add_finished` only
ever promotes: the previous best is retained unless it was `None` or the new
candidate is strictly better. -/
theorem c3_best_candidate_invariant (minimization : Bool) (ops : List ExpOp) :
    ((runOps (initExp minimization) ops).best_candidate = none ↔
      (runOps (initExp minimization) ops).candidates_finished = []) ∧
    (∀ b : Candidate,
      (runOps (initExp minimization) ops).best_candidate = some b →
      b ∈ (runOps (initExp minimization) ops).candidates_finished ∧
      ∀ x ∈ (runOps (initExp minimization) ops).candidates_finished,
        betterCand (runOps (initExp minimization) ops).minimization_problem
          (some x) (some b) = false) ∧
    (∀ c : Candidate,
      (addFinished (runOps (initExp minimization) ops) c).best_candidate =
        if (runOps (initExp minimization) ops).best_candidate = none ∨
            betterCand (runOps (initExp minimization) ops).minimization_problem
              (some c) (runOps (initExp minimization) ops).best_candidate = true
        then some c
        else (runOps (initExp minimization) ops).best_candidate) := by
  have h : BestInv (runOps (initExp minimization) ops) :=
    bestInv_runOps ops (initExp minimization) (by constructor <;> simp [initExp])
  exact ⟨h.1, h.2, fun c => rfl⟩

/-- Counterexample to C3 as stated: finishing a candidate whose result is
`None` on a fresh experiment makes `best_candidate` non-null even though no
finished candidate has a non-null result, refuting "null iff no finished
candidate has a non-null result". -/
theorem c3_counterexample :
    (runOps (initExp true) [ExpOp.finished ⟨0, none⟩]).best_candidate =
      some ⟨0, none⟩ ∧
    (runOps (initExp true) [ExpOp.finished ⟨0, none⟩]).candidates_finished =
      [⟨0, none⟩] ∧
    (⟨0, none⟩ : Candidate).result = none := by
  decide

/-- Witness for C3 at a concrete run. -/
theorem c3_best_candidate_invariant_witness :
    ((⟨0, some 3⟩ : Candidate) ∈
      (runOps (initExp true) [ExpOp.finished ⟨0, some 3⟩]).candidates_finished) ∧
    betterCand (runOps (initExp true) [ExpOp.finished ⟨0, some 3⟩]).minimization_problem
      (some ⟨0, some 3⟩) (some ⟨0, some 3⟩) = false := by
  have h := c3_best_candidate_invariant true [ExpOp.finished ⟨0, some 3⟩]
  have hb := h.2.1 ⟨0, some 3⟩ (by decide)
  exact ⟨hb.1, hb.2 ⟨0, some 3⟩ hb.1⟩

/-! ### Queue disjointness (C2) -/

/-- The lifecycle phase of one candidate, per the spec's state machine
`{pending, working, finished}` plus "absent, before its first add". -/
inductive Phase where
  | absent
  | inPending
  | inWorking
  | inFinished
deriving DecidableEq, Repr

/-- The spec's legal transitions: a new candidate may be added pending or
working; `pending → working`, `working → pending` (pausing),
`pending → finished`, `working → finished`; `finished` is terminal. -/
def allowedOp : Phase → ExpOp → Bool
  | .absent, .pending _ => true
  | .absent, .working _ => true
  | .inPending, .working _ => true
  | .inPending, .finished _ => true
  | .inWorking, .pausing _ => true
  | .inWorking, .finished _ => true
  | _, _ => false

/-- The phase a candidate enters after an operation on it. -/
def nextPhase : ExpOp → Phase
  | .pending _ => .inPending
  | .working _ => .inWorking
  | .pausing _ => .inPending
  | .finished _ => .inFinished

/-- Update the per-candidate phase map after one operation. -/
def updatePhase (phases : Candidate → Phase) (op : ExpOp) : Candidate → Phase :=
  fun c => if c = op.cand then nextPhase op else phases c

/-- An operation sequence respects the candidate lifecycle, starting from the
given phase map. -/
def lifecycleValid (phases : Candidate → Phase) : List ExpOp → Bool
  | [] => true
  | op :: rest =>
    allowedOp (phases op.cand) op && lifecycleValid (updatePhase phases op) rest

/-- How often a candidate occurs in each queue, per phase. -/
def phaseCounts : Phase → Nat × Nat × Nat
  | .absent => (0, 0, 0)
  | .inPending => (1, 0, 0)
  | .inWorking => (0, 1, 0)
  | .inFinished => (0, 0, 1)

/-- The queues carry each candidate with exactly the multiplicity its phase
prescribes. -/
def QueuesAgree (phases : Candidate → Phase) (e : Exp) : Prop :=
  ∀ c : Candidate,
    e.candidates_pending.count c = (phaseCounts (phases c)).1 ∧
    e.candidates_working.count c = (phaseCounts (phases c)).2.1 ∧
    e.candidates_finished.count c = (phaseCounts (phases c)).2.2

theorem removeFirst_count_self (l : List Candidate) (c : Candidate) :
    (removeFirst l c).count c = l.count c - 1 := by
  induction l with
  | nil => simp [removeFirst]
  | cons x xs ih =>
    by_cases hx : x = c
    · subst hx
      simp [removeFirst]
    · simp [removeFirst, hx, ih, List.count_cons, Ne.symm hx]

theorem removeFirst_count_ne (l : List Candidate) (c d : Candidate)
    (h : d ≠ c) : (removeFirst l c).count d = l.count d := by
  induction l with
  | nil => simp [removeFirst]
  | cons x xs ih =>
    by_cases hx : x = c
    · subst hx
      simp [removeFirst, List.count_cons, Ne.symm h]
    · simp [removeFirst, hx, ih, List.count_cons]

theorem count_append_self (l : List Candidate) (c : Candidate) :
    (l ++ [c]).count c = l.count c + 1 := by
  simp

theorem count_append_ne (l : List Candidate) (c d : Candidate) (h : d ≠ c) :
    (l ++ [c]).count d = l.count d := by
  simp [List.count_singleton', h]

/-- One lifecycle-respecting operation preserves queue/phase agreement. -/
theorem queuesAgree_step (phases : Candidate → Phase) (e : Exp) (op : ExpOp)
    (hallow : allowedOp (phases op.cand) op = true)
    (h : QueuesAgree phases e) :
    QueuesAgree (updatePhase phases op) (step e op) := by
  intro c
  obtain ⟨hp, hw, hf⟩ := h c
  by_cases hc : c = op.cand
  · rw [hc] at hp hw hf ⊢
    cases op with
    | pending d =>
      simp only [ExpOp.cand] at hp hw hf hallow ⊢
      cases hph : phases d <;> rw [hph] at hallow <;>
        simp [allowedOp] at hallow <;>
        rw [hph] at hp hw hf <;> simp only [phaseCounts] at hp hw hf <;>
        simp [step, addPending, updatePhase, ExpOp.cand, nextPhase, phaseCounts,
          count_append_self, hp, hw, hf]
    | working d =>
      simp only [ExpOp.cand] at hp hw hf hallow ⊢
      cases hph : phases d <;> rw [hph] at hallow <;>
        simp [allowedOp] at hallow <;>
        rw [hph] at hp hw hf <;> simp only [phaseCounts] at hp hw hf <;>
        simp [step, addWorking, updatePhase, ExpOp.cand, nextPhase, phaseCounts,
          count_append_self, removeFirst_count_self, hp, hw, hf]
    | pausing d =>
      simp only [ExpOp.cand] at hp hw hf hallow ⊢
      cases hph : phases d <;> rw [hph] at hallow <;>
        simp [allowedOp] at hallow <;>
        rw [hph] at hp hw hf <;> simp only [phaseCounts] at hp hw hf <;>
        simp [step, addPausing, updatePhase, ExpOp.cand, nextPhase, phaseCounts,
          count_append_self, removeFirst_count_self, hp, hw, hf]
    | finished d =>
      simp only [ExpOp.cand] at hp hw hf hallow ⊢
      cases hph : phases d <;> rw [hph] at hallow <;>
        simp [allowedOp] at hallow <;>
        rw [hph] at hp hw hf <;> simp only [phaseCounts] at hp hw hf <;>
        simp [step, addFinished, updatePhase, ExpOp.cand, nextPhase, phaseCounts,
          count_append_self, removeFirst_count_self, hp, hw, hf]
  · have hupd : updatePhase phases op c = phases c := by
      simp [updatePhase, hc]
    cases op with
    | pending d =>
      have hcd : c ≠ d := by simpa [ExpOp.cand] using hc
      rw [hupd]
      exact ⟨by simp [step, addPending, count_append_ne _ _ _ hcd, hp],
        by simp [step, addPending, hw], by simp [step, addPending, hf]⟩
    | working d =>
      have hcd : c ≠ d := by simpa [ExpOp.cand] using hc
      rw [hupd]
      exact ⟨by simp [step, addWorking, removeFirst_count_ne _ _ _ hcd, hp],
        by simp [step, addWorking, count_append_ne _ _ _ hcd, hw],
        by simp [step, addWorking, hf]⟩
    | pausing d =>
      have hcd : c ≠ d := by simpa [ExpOp.cand] using hc
      rw [hupd]
      exact ⟨by simp [step, addPausing, count_append_ne _ _ _ hcd, hp],
        by simp [step, addPausing, removeFirst_count_ne _ _ _ hcd, hw],
        by simp [step, addPausing, hf]⟩
    | finished d =>
      have hcd : c ≠ d := by simpa [ExpOp.cand] using hc
      rw [hupd]
      exact ⟨by simp [step, addFinished, removeFirst_count_ne _ _ _ hcd, hp],
        by simp [step, addFinished, removeFirst_count_ne _ _ _ hcd, hw],
        by simp [step, addFinished, count_append_ne _ _ _ hcd, hf]⟩

/-- Queue/phase agreement is preserved along any lifecycle-valid run. -/
theorem queuesAgree_runOps (ops : List ExpOp) :
    ∀ (phases : Candidate → Phase) (e : Exp),
      lifecycleValid phases ops = true → QueuesAgree phases e →
      ∃ phases', QueuesAgree phases' (runOps e ops) := by
  induction ops with
  | nil => exact fun phases e _ h => ⟨phases, h⟩
  | cons op rest ih =>
    intro phases e hv h
    rw [lifecycleValid, Bool.and_eq_true] at hv
    exact ih (updatePhase phases op) (step e op) hv.2
      (queuesAgree_step phases e op hv.1 h)

/-- C2 (amended): for every lifecycle-respecting sequence of
`add_pending`/`add_working`/`add_pausing`/`add_finished` calls (each
candidate's calls follow the legal transitions: first add as pending or
working, `add_working` on a pending candidate, `add_pausing` on a working
one, `add_finished` on a pending or working one, nothing after finished),
every candidate occurs in the three queues with total multiplicity at most
one: it is in at most one queue and appears at most once there.  Re-adding an
already-working candidate via `add_working` is excluded because it appends a
duplicate (see the counterexample). -/
theorem c2_queue_disjointness (minimization : Bool) (ops : List ExpOp)
    (hv : lifecycleValid (fun _ => Phase.absent) ops = true) (c : Candidate) :
    (runOps (initExp minimization) ops).candidates_pending.count c +
      (runOps (initExp minimization) ops).candidates_working.count c +
      (runOps (initExp minimization) ops).candidates_finished.count c ≤ 1 := by
  obtain ⟨phases', h⟩ :=
    queuesAgree_runOps ops (fun _ => Phase.absent) (initExp minimization) hv
      (fun c => by simp [initExp, phaseCounts])
  obtain ⟨hp, hw, hf⟩ := h c
  rw [hp, hw, hf]
  cases phases' c <;> simp [phaseCounts]

/-- Counterexample to C2 as stated: calling `add_working` twice on the same
candidate (re-adding an already-working candidate) duplicates it in the
working queue. -/
theorem c2_counterexample :
    (runOps (initExp true)
        [ExpOp.working ⟨0, none⟩, ExpOp.working ⟨0, none⟩]).candidates_working =
      [⟨0, none⟩, ⟨0, none⟩] ∧
    (runOps (initExp true)
        [ExpOp.working ⟨0, none⟩, ExpOp.working ⟨0, none⟩]).candidates_working.count
        ⟨0, none⟩ = 2 := by
  decide

/-- Witness for C2 at a concrete lifecycle-valid run. -/
theorem c2_queue_disjointness_witness :
    lifecycleValid (fun _ => Phase.absent)
      [ExpOp.pending ⟨0, none⟩, ExpOp.working ⟨0, none⟩,
        ExpOp.finished ⟨0, none⟩] = true ∧
    (runOps (initExp true)
        [ExpOp.pending ⟨0, none⟩, ExpOp.working ⟨0, none⟩,
          ExpOp.finished ⟨0, none⟩]).candidates_pending.count ⟨0, none⟩ +
      (runOps (initExp true)
        [ExpOp.pending ⟨0, none⟩, ExpOp.working ⟨0, none⟩,
          ExpOp.finished ⟨0, none⟩]).candidates_working.count ⟨0, none⟩ +
      (runOps (initExp true)
        [ExpOp.pending ⟨0, none⟩, ExpOp.working ⟨0, none⟩,
          ExpOp.finished ⟨0, none⟩]).candidates_finished.count ⟨0, none⟩ ≤ 1 :=
  ⟨by decide,
    c2_queue_disjointness true
      [ExpOp.pending ⟨0, none⟩, ExpOp.working ⟨0, none⟩,
        ExpOp.finished ⟨0, none⟩] (by decide) ⟨0, none⟩⟩

/-! ### ExperimentAssistant (`experiment_assistant.py`) -/

/-- `AVAILABLE_STATUS` from `experiment_assistant.py`. -/
def AVAILABLE_STATUS : List String := ["finished", "pausing", "working"]

/-- The argument passed for `candidate` in `ExperimentAssistant.update`:
either a genuine Candidate or a value of some other type, which the
`isinstance(candidate, Candidate)` check rejects. -/
inductive UpdateArg where
  | cand (c : Candidate)
  | notACandidate
deriving DecidableEq, Repr

/-- The two validation errors `update` raises (`ValueError` with a
descriptive message; the message text is abstracted to a tag). -/
inductive UpdateError where
  | badStatus
  | badCandidate
deriving DecidableEq, Repr

/-- The assistant's state: the wrapped Experiment plus a count of optimizer
retrains (calls to `self._optimizer.update(self._experiment)`). -/
structure Assistant where
  exp : Exp
  optimizerUpdates : Nat
deriving DecidableEq, Repr

/-- `ExperimentAssistant.update(candidate, status)`: first validate the
status string, then the candidate, then route to the matching Experiment
transition; on "finished" additionally retrain the optimizer.  Raising is
modelled as `Except.error`: a new state is only produced on the `ok` path,
so an error leaves the queues, `best_candidate` and the optimizer untouched. -/
def assistantUpdate (s : Assistant) (arg : UpdateArg) (status : String) :
    Except UpdateError Assistant :=
  if status ∉ AVAILABLE_STATUS then
    .error .badStatus
  else
    match arg with
    | .notACandidate => .error .badCandidate
    | .cand c =>
      if status = "finished" then
        .ok { exp := addFinished s.exp c,
              optimizerUpdates := s.optimizerUpdates + 1 }
      else if status = "pausing" then
        .ok { s with exp := addPausing s.exp c }
      else if status = "working" then
        .ok { s with exp := addWorking s.exp c }
      else
        .ok s

/-- `ExperimentAssistant.get_next_candidate()`: if a pending candidate
exists, pop the most recent one (`list.pop()` removes and returns the last
element) and promote it to working, never touching the optimizer; otherwise
query the optimizer for one candidate (`num_candidates=1`; the oracle's
answer is `optResult`) and, if a non-empty list comes back, put its first
element to working.  Result: (returned candidate or `none`, new Experiment,
whether the optimizer was queried). -/
def getNextCandidate (e : Exp) (optResult : Option (List Candidate)) :
    Option Candidate × Exp × Bool :=
  match e.candidates_pending with
  | [] =>
    match optResult with
    | none => (none, e, true)
    | some [] => (none, e, true)
    | some (c :: _) => (some c, addWorking e c, true)
  | x :: xs =>
    let cand := (x :: xs).getLast (List.cons_ne_nil x xs)
    let e1 := { e with candidates_pending := (x :: xs).dropLast }
    (some cand, addWorking e1 cand, false)

/-- C8: `update` with a status outside {finished, pausing, working} or with a
non-Candidate argument raises a validation error before any mutation: the
result is an `error`, so the queues, `best_candidate` and the optimizer are
left unchanged (a new state exists only on the `ok` path). -/
theorem c8_update_validates_before_mutation (s : Assistant) (arg : UpdateArg)
    (status : String) :
    (status ∉ AVAILABLE_STATUS →
      assistantUpdate s arg status = .error .badStatus) ∧
    (arg = .notACandidate →
      ∃ err, assistantUpdate s arg status = .error err) := by
  constructor
  · intro h
    simp [assistantUpdate, h]
  · intro h
    subst h
    by_cases hs : status ∈ AVAILABLE_STATUS
    · exact ⟨.badCandidate, by simp [assistantUpdate, hs]⟩
    · exact ⟨.badStatus, by simp [assistantUpdate, hs]⟩

/-- Witness for C8: status `"bogus"` and a non-Candidate argument. -/
theorem c8_update_validates_before_mutation_witness :
    assistantUpdate ⟨initExp true, 0⟩ (UpdateArg.cand ⟨0, none⟩) "bogus" =
      .error .badStatus ∧
    ∃ err, assistantUpdate ⟨initExp true, 0⟩ UpdateArg.notACandidate "finished" =
      .error err :=
  ⟨(c8_update_validates_before_mutation ⟨initExp true, 0⟩
      (UpdateArg.cand ⟨0, none⟩) "bogus").1 (by decide),
   (c8_update_validates_before_mutation ⟨initExp true, 0⟩
      UpdateArg.notACandidate "finished").2 rfl⟩

/-- C9: `get_next_candidate` pops and promotes a pending candidate without
querying the optimizer when one exists; with an empty pending queue it
queries the optimizer once, promotes and returns the candidate obtained, and
returns `none` (rather than raising) when the optimizer yields nothing. -/
theorem c9_get_next_candidate (e : Exp) (optResult : Option (List Candidate)) :
    (∀ y ys, e.candidates_pending = y :: ys →
      getNextCandidate e optResult =
        (some ((y :: ys).getLast (List.cons_ne_nil y ys)),
         addWorking { e with candidates_pending := (y :: ys).dropLast }
           ((y :: ys).getLast (List.cons_ne_nil y ys)),
         false)) ∧
    (e.candidates_pending = [] → optResult = none →
      getNextCandidate e optResult = (none, e, true)) ∧
    (e.candidates_pending = [] → optResult = some [] →
      getNextCandidate e optResult = (none, e, true)) ∧
    (∀ c rest, e.candidates_pending = [] → optResult = some (c :: rest) →
      getNextCandidate e optResult = (some c, addWorking e c, true)) := by
  obtain ⟨p, w, f, b, m⟩ := e
  cases p with
  | nil =>
    refine ⟨fun y ys hy => List.noConfusion hy, fun _ h => ?_, fun _ h => ?_,
      fun c rest _ h => ?_⟩ <;> subst h <;> rfl
  | cons x xs =>
    refine ⟨fun y ys hy => ?_, fun h _ => List.noConfusion h,
      fun h _ => List.noConfusion h, fun c rest h _ => List.noConfusion h⟩
    injection hy with h1 h2
    subst h1
    subst h2
    rfl

/-- Witness for C9: both the pending-queue path and the three optimizer
paths at concrete inputs. -/
theorem c9_get_next_candidate_witness :
    getNextCandidate ⟨[⟨1, none⟩, ⟨2, none⟩], [], [], none, true⟩ none =
      (some (((⟨1, none⟩ : Candidate) :: [⟨2, none⟩]).getLast
          (List.cons_ne_nil (⟨1, none⟩ : Candidate) [⟨2, none⟩])),
       addWorking
         ⟨((⟨1, none⟩ : Candidate) :: [⟨2, none⟩]).dropLast, [], [], none, true⟩
         (((⟨1, none⟩ : Candidate) :: [⟨2, none⟩]).getLast
          (List.cons_ne_nil (⟨1, none⟩ : Candidate) [⟨2, none⟩])),
       false) ∧
    getNextCandidate (initExp true) none = (none, initExp true, true) ∧
    getNextCandidate (initExp true) (some []) = (none, initExp true, true) ∧
    getNextCandidate (initExp true) (some [⟨5, none⟩]) =
      (some ⟨5, none⟩, addWorking (initExp true) ⟨5, none⟩, true) :=
  ⟨(c9_get_next_candidate ⟨[⟨1, none⟩, ⟨2, none⟩], [], [], none, true⟩ none).1
      ⟨1, none⟩ [⟨2, none⟩] rfl,
   (c9_get_next_candidate (initExp true) none).2.1 rfl rfl,
   (c9_get_next_candidate (initExp true) (some [])).2.2.1 rfl rfl,
   (c9_get_next_candidate (initExp true) (some [⟨5, none⟩])).2.2.2
      ⟨5, none⟩ [] rfl rfl⟩

/-- C10: the pending queue is drained in LIFO order: whenever
`candidates_pending` is non-empty (any list `l ++ [c]`), `get_next_candidate`
returns its last element `c`, which is the most recently appended member
(both `add_pending` and `add_pausing` append at the end). -/
theorem c10_pending_lifo (e : Exp) (optResult : Option (List Candidate))
    (l : List Candidate) (c : Candidate)
    (h : e.candidates_pending = l ++ [c]) :
    (getNextCandidate e optResult).1 = some c := by
  obtain ⟨p, w, f, b, m⟩ := e
  simp only at h
  subst h
  cases l with
  | nil => rfl
  | cons x xs =>
    simp [getNextCandidate, List.getLast_append]

/-- Witness for C10 at a concrete pending queue. -/
theorem c10_pending_lifo_witness :
    (getNextCandidate ⟨[⟨1, none⟩, ⟨2, none⟩], [], [], none, true⟩ none).1 =
      some ⟨2, none⟩ :=
  c10_pending_lifo ⟨[⟨1, none⟩, ⟨2, none⟩], [], [], none, true⟩ none
    [⟨1, none⟩] ⟨2, none⟩ rfl

/-! ### AcquisitionFunction.compute_proposals (`acquisition_functions.py`)

The random-search proposal engine.  The `random_steps` uniform samples of the
unit cube are the oracle `samples`; the scoring closure
`_compute_minimizing_evaluate(param_dict, gp, experiment)` is the oracle `f`
(both variants negate a nonnegative acquisition value there, so its values
are nonpositive); the `random.uniform(0, sum_acq[-1])` draws of the while
loop are the oracle `draws`.  Scores are exact rationals; `none` models an
uncaught `IndexError`. -/

/-- The first `steps` random samples, in evaluation order
(`evaluated_params`). -/
def evaluatedParams {α : Type} (samples : Nat → α) (steps : Nat) : List α :=
  (List.range steps).map samples

/-- Their acquisition scores, in evaluation order (`evaluated_acq_scores`). -/
def evaluatedScores {α : Type} (samples : Nat → α) (f : α → ℚ) (steps : Nat) :
    List ℚ :=
  (evaluatedParams samples steps).map f

/-- The loop's running best: `best_score = float("inf")`, then
`if score < best_score: best_param_idx = i; best_score = score` over the
scores in order.  `i` is the index of the next score, `bi`/`bs` the best
index and score so far, `none` standing for the initial infinity. -/
def bestScan : List ℚ → Nat → Nat → Option ℚ → Nat
  | [], _, bi, _ => bi
  | s :: rest, i, _, none => bestScan rest (i + 1) i (some s)
  | s :: rest, i, bi, some b =>
    if s < b then bestScan rest (i + 1) i (some s)
    else bestScan rest (i + 1) bi (some b)

/-- `best_param_idx` after the random-search loop. -/
def bestIdx (scores : List ℚ) : Nat :=
  bestScan scores 0 0 none

/-- `sum_acq`: entry `i` is `scores[0] + ... + scores[i]`
(`sum_acq.append(score + sum_acq[-1])`). -/
def cumSums : List ℚ → List ℚ
  | [] => []
  | s :: rest => s :: (cumSums rest).map (fun t => s + t)

/-- The fitness-proportional walk `next_prop_idx = 0;
while sum_rand < sum_acq[next_prop_idx]: next_prop_idx += 1`: the first index
whose cumulative sum is `≤ sum_rand`.  `none` models the `IndexError` raised
when the walk runs past the end of `sum_acq`. -/
def walkIdx : List ℚ → ℚ → Option Nat
  | [], _ => none
  | s :: rest, sumRand =>
    if sumRand < s then (walkIdx rest sumRand).map (· + 1) else some 0

/-- One iteration of the `while len(proposals) < number_proposals` body:
walk the cumulative sums with the drawn `sum_rand` and read
`evaluated_params[next_prop_idx]`. -/
def pickProposal {α : Type} (params : List α) (sumAcq : List ℚ)
    (sumRand : ℚ) : Option α :=
  (walkIdx sumAcq sumRand).bind fun idx => params[idx]?

/-- The remaining iterations of the while loop: `n` more proposals, the
`k`-th iteration consuming the draw `draws k`. -/
def collectExtras {α : Type} (params : List α) (sumAcq : List ℚ)
    (draws : Nat → ℚ) : Nat → Nat → Option (List α)
  | _, 0 => some []
  | k, n + 1 =>
    (pickProposal params sumAcq (draws k)).bind fun p =>
      (collectExtras params sumAcq draws (k + 1) n).map fun rest => p :: rest

/-- `AcquisitionFunction.compute_proposals(gp, experiment, number_proposals,
random_steps)`: evaluate `max(random_steps, number_proposals)` random
samples, put the best-scoring one first, then fill up with
fitness-proportionally drawn samples. -/
def computeProposals {α : Type} (samples : Nat → α) (f : α → ℚ)
    (draws : Nat → ℚ) (numberProposals randomSteps : Nat) : Option (List α) :=
  let steps := max randomSteps numberProposals
  let params := evaluatedParams samples steps
  let scores := evaluatedScores samples f steps
  let sumAcq := cumSums scores
  (params[bestIdx scores]?).bind fun first =>
    (collectExtras params sumAcq draws 0 (numberProposals - 1)).map
      fun rest => first :: rest

theorem cumSums_length (l : List ℚ) : (cumSums l).length = l.length := by
  induction l with
  | nil => rfl
  | cons s rest ih => simp [cumSums, ih]

theorem sum_mem_cumSums (l : List ℚ) (h : l ≠ []) : l.sum ∈ cumSums l := by
  induction l with
  | nil => exact absurd rfl h
  | cons s rest ih =>
    cases rest with
    | nil => simp [cumSums]
    | cons t ts =>
      have hmem := ih (by simp)
      simp only [cumSums, List.sum_cons]
      exact List.mem_cons_of_mem _ (List.mem_map_of_mem _ hmem)

/-- The walk stops inside the array as soon as some cumulative sum is at
most the drawn value. -/
theorem walkIdx_terminates (sumAcq : List ℚ) (r : ℚ)
    (h : ∃ s ∈ sumAcq, s ≤ r) :
    ∃ i, walkIdx sumAcq r = some i ∧ i < sumAcq.length := by
  induction sumAcq with
  | nil =>
    obtain ⟨s, hs, _⟩ := h
    exact absurd hs (List.not_mem_nil s)
  | cons s rest ih =>
    by_cases hr : r < s
    · have hrest : ∃ t ∈ rest, t ≤ r := by
        obtain ⟨t, ht, htr⟩ := h
        rcases List.mem_cons.mp ht with h1 | h1
        · subst h1
          linarith
        · exact ⟨t, h1, htr⟩
      obtain ⟨i, hi, hlen⟩ := ih hrest
      refine ⟨i + 1, by simp [walkIdx, hr, hi], ?_⟩
      simp only [List.length_cons]
      omega
    · exact ⟨0, by simp [walkIdx, hr], by simp⟩

/-- The scan returns an in-range index of a minimal score.  `L` is the full
score list; the invariant relates the already-consumed prefix (of length
`i`, with running best `bi`/`bs`) to the still-unread suffix `l`. -/
theorem bestScan_spec (l : List ℚ) :
    ∀ (L : List ℚ) (i bi : Nat) (bs : Option ℚ),
      l = L.drop i →
      (bs = none → i = 0) →
      (∀ b, bs = some b → bi < i ∧ bi < L.length ∧ L.getD bi 0 = b ∧
        ∀ m < i, b ≤ L.getD m 0) →
      L ≠ [] →
      bestScan l i bi bs < L.length ∧
      ∀ m < L.length, L.getD (bestScan l i bi bs) 0 ≤ L.getD m 0 := by
  induction l with
  | nil =>
    intro L i bi bs hdrop hnone hsome hL
    have hlen : L.length ≤ i := List.drop_eq_nil_iff.mp hdrop.symm
    cases bs with
    | none =>
      have hi0 : i = 0 := hnone rfl
      rw [hi0] at hlen
      exact absurd (List.length_eq_zero.mp (Nat.le_zero.mp hlen)) hL
    | some b =>
      obtain ⟨h1, h2, h3, h4⟩ := hsome b rfl
      refine ⟨h2, fun m hm => ?_⟩
      rw [show bestScan [] i bi (some b) = bi from rfl, h3]
      exact h4 m (lt_of_lt_of_le hm hlen)
  | cons s rest ih =>
    intro L i bi bs hdrop hnone hsome hL
    have hi : i < L.length := by
      by_contra hcon
      push_neg at hcon
      rw [List.drop_eq_nil_iff.mpr hcon] at hdrop
      exact List.noConfusion hdrop
    have hhead : L.getD i 0 = s := by
      have h0 : (L.drop i)[0]? = some s := by
        rw [← hdrop]
        simp
      rw [List.getElem?_drop] at h0
      rw [List.getD_eq_getD_get?, List.get?_eq_getElem?]
      simp only [Nat.add_zero] at h0
      rw [h0]
      rfl
    have hrest : rest = L.drop (i + 1) := by
      have h1 := List.drop_drop 1 i L
      rw [← hdrop] at h1
      simpa using h1
    cases bs with
    | none =>
      have hi0 : i = 0 := hnone rfl
      subst hi0
      show bestScan rest 1 0 (some s) < L.length ∧ _
      refine ih L 1 0 (some s) hrest (fun hcon => Option.noConfusion hcon)
        (fun b hb => ?_) hL
      obtain rfl : s = b := Option.some.inj hb
      refine ⟨Nat.zero_lt_one, hi, hhead, fun m hm => ?_⟩
      obtain rfl : m = 0 := Nat.lt_one_iff.mp hm
      rw [hhead]
    | some b =>
      obtain ⟨h1, h2, h3, h4⟩ := hsome b rfl
      by_cases hsb : s < b
      · show bestScan (s :: rest) i bi (some b) < L.length ∧ _
        rw [show bestScan (s :: rest) i bi (some b) =
            bestScan rest (i + 1) i (some s) by simp [bestScan, hsb]]
        refine ih L (i + 1) i (some s) hrest
          (fun hcon => Option.noConfusion hcon) (fun b' hb' => ?_) hL
        obtain rfl : s = b' := Option.some.inj hb'
        refine ⟨Nat.lt_succ_self i, hi, hhead, fun m hm => ?_⟩
        rcases Nat.lt_succ_iff_lt_or_eq.mp hm with hm' | hm'
        · exact le_trans (le_of_lt hsb) (h4 m hm')
        · subst hm'
          rw [hhead]
      · rw [show bestScan (s :: rest) i bi (some b) =
            bestScan rest (i + 1) bi (some b) by simp [bestScan, hsb]]
        refine ih L (i + 1) bi (some b) hrest
          (fun hcon => Option.noConfusion hcon) (fun b' hb' => ?_) hL
        obtain rfl : b = b' := Option.some.inj hb'
        refine ⟨Nat.lt_succ_of_lt h1, h2, h3, fun m hm => ?_⟩
        rcases Nat.lt_succ_iff_lt_or_eq.mp hm with hm' | hm'
        · exact h4 m hm'
        · subst hm'
          rw [hhead]
          exact le_of_not_lt hsb

/-- `best_param_idx` is an in-range index of a minimal score. -/
theorem bestIdx_spec (L : List ℚ) (hL : L ≠ []) :
    bestIdx L < L.length ∧
    ∀ m < L.length, L.getD (bestIdx L) 0 ≤ L.getD m 0 :=
  bestScan_spec L L 0 0 none (by simp) (fun _ => rfl)
    (fun b hb => Option.noConfusion hb) hL

/-- If every draw's walk succeeds, the while loop completes with the
requested number of extra proposals. -/
theorem collectExtras_some {α : Type} (params : List α) (sumAcq : List ℚ)
    (draws : Nat → ℚ)
    (hpick : ∀ j, ∃ p, pickProposal params sumAcq (draws j) = some p) :
    ∀ n k, ∃ rest, collectExtras params sumAcq draws k n = some rest ∧
      rest.length = n := by
  intro n
  induction n with
  | zero => exact fun k => ⟨[], rfl, rfl⟩
  | succ m ih =>
    intro k
    obtain ⟨p, hp⟩ := hpick k
    obtain ⟨rest, hrest, hlen⟩ := ih (k + 1)
    exact ⟨p :: rest, by simp [collectExtras, hp, hrest], by simp [hlen]⟩

/-- C1: for any experiment and acquisition variant (the minimizing scores the
variants feed this loop are nonpositive: each negates a nonnegative
acquisition value), any `number_proposals ≥ 1` and any `random_steps`, with
every `random.uniform(0, sum_acq[-1])` draw inside its range,
`compute_proposals` returns exactly `number_proposals` points, the first of
which has the best (sign-normalized to minimize, i.e. minimal) score among
all evaluated samples, and every cumulative-sum walk stops at an index
strictly inside the evaluated-samples array (no `IndexError`). -/
theorem c1_compute_proposals_safety {α : Type} (samples : Nat → α)
    (f : α → ℚ) (draws : Nat → ℚ) (numberProposals randomSteps : Nat)
    (hn : 1 ≤ numberProposals)
    (_hscores : ∀ i : Nat, f (samples i) ≤ 0)
    (hdraws : ∀ k : Nat,
      (evaluatedScores samples f (max randomSteps numberProposals)).sum ≤
        draws k ∧ draws k ≤ 0) :
    ∃ ps : List α,
      computeProposals samples f draws numberProposals randomSteps = some ps ∧
      ps.length = numberProposals ∧
      (∃ hne : ps ≠ [], ∀ i < max randomSteps numberProposals,
        f (ps.head hne) ≤ f (samples i)) ∧
      (∀ k : Nat, ∃ idx,
        walkIdx (cumSums (evaluatedScores samples f
          (max randomSteps numberProposals))) (draws k) = some idx ∧
        idx < max randomSteps numberProposals) := by
  set steps := max randomSteps numberProposals with hsteps
  have hsteps1 : 0 < steps := lt_of_lt_of_le hn (le_max_right _ _)
  have hlenp : (evaluatedParams samples steps).length = steps := by
    simp [evaluatedParams]
  have hlens : (evaluatedScores samples f steps).length = steps := by
    simp [evaluatedScores, evaluatedParams]
  have hlenc : (cumSums (evaluatedScores samples f steps)).length = steps := by
    rw [cumSums_length, hlens]
  have hsne : evaluatedScores samples f steps ≠ [] := by
    intro hcon
    rw [hcon] at hlens
    simp at hlens
    omega
  have hgetD : ∀ m, m < steps →
      (evaluatedScores samples f steps).getD m 0 = f (samples m) := by
    intro m hm
    have hm' : m < (evaluatedScores samples f steps).length := by
      rw [hlens]
      exact hm
    rw [List.getD_eq_getElem _ _ hm']
    simp [evaluatedScores, evaluatedParams]
  obtain ⟨hblt, hbmin⟩ := bestIdx_spec (evaluatedScores samples f steps) hsne
  have hbp : bestIdx (evaluatedScores samples f steps) <
      (evaluatedParams samples steps).length := by
    rw [hlenp]
    rw [hlens] at hblt
    exact hblt
  have hwalk : ∀ k : Nat, ∃ idx,
      walkIdx (cumSums (evaluatedScores samples f steps)) (draws k) =
        some idx ∧ idx < steps := by
    intro k
    have hsum : (evaluatedScores samples f steps).sum ∈
        cumSums (evaluatedScores samples f steps) :=
      sum_mem_cumSums _ hsne
    obtain ⟨idx, hidx, hlt⟩ :=
      walkIdx_terminates _ (draws k) ⟨_, hsum, (hdraws k).1⟩
    rw [hlenc] at hlt
    exact ⟨idx, hidx, hlt⟩
  have hpick : ∀ j : Nat, ∃ p, pickProposal (evaluatedParams samples steps)
      (cumSums (evaluatedScores samples f steps)) (draws j) = some p := by
    intro j
    obtain ⟨idx, hidx, hlt⟩ := hwalk j
    have hlt' : idx < (evaluatedParams samples steps).length := by
      rw [hlenp]
      exact hlt
    exact ⟨(evaluatedParams samples steps).get ⟨idx, hlt'⟩,
      by simp [pickProposal, hidx, List.getElem?_eq_getElem hlt',
        List.get_eq_getElem]⟩
  obtain ⟨rest, hrest, hrestlen⟩ :=
    collectExtras_some _ _ draws hpick (numberProposals - 1) 0
  refine ⟨(evaluatedParams samples steps).get
      ⟨bestIdx (evaluatedScores samples f steps), hbp⟩ :: rest,
      ?_, ?_, ?_, hwalk⟩
  · show computeProposals samples f draws numberProposals randomSteps = _
    simp only [computeProposals]
    rw [← hsteps, List.getElem?_eq_getElem hbp, hrest]
    rfl
  · simp only [List.length_cons, hrestlen]
    omega
  · refine ⟨List.cons_ne_nil _ _, fun i hi => ?_⟩
    have hfval : f ((evaluatedParams samples steps).get
        ⟨bestIdx (evaluatedScores samples f steps), hbp⟩) =
        (evaluatedScores samples f steps).getD
          (bestIdx (evaluatedScores samples f steps)) 0 := by
      rw [List.getD_eq_getElem _ _ hblt]
      simp [evaluatedScores]
    show f ((evaluatedParams samples steps).get
        ⟨bestIdx (evaluatedScores samples f steps), hbp⟩) ≤ f (samples i)
    rw [hfval, ← hgetD i hi]
    exact hbmin i (by rw [hlens]; exact hi)

/-- Witness for C1: three constant-score samples, two proposals. -/
theorem c1_compute_proposals_safety_witness :
    (1 ≤ 2) ∧
    (∃ ps : List ℕ,
      computeProposals (fun i => i) (fun _ => (-1 : ℚ)) (fun _ => (-1 : ℚ))
        2 3 = some ps ∧
      ps.length = 2 ∧
      (∃ hne : ps ≠ [], ∀ i < max 3 2,
        (fun _ => (-1 : ℚ)) (ps.head hne) ≤
          (fun _ => (-1 : ℚ)) ((fun i => i) i)) ∧
      (∀ k : Nat, ∃ idx,
        walkIdx (cumSums (evaluatedScores (fun i => i)
          (fun _ => (-1 : ℚ)) (max 3 2))) ((fun _ => (-1 : ℚ)) k) =
            some idx ∧
        idx < max 3 2)) :=
  ⟨by norm_num,
    c1_compute_proposals_safety (fun i => i) (fun _ => (-1 : ℚ))
      (fun _ => (-1 : ℚ)) 2 3 (by norm_num) (fun i => by norm_num)
      (fun k => ⟨by
        show (evaluatedScores (fun i : Nat => i)
          (fun _ => (-1 : ℚ)) (max 3 2)).sum ≤ (-1 : ℚ)
        norm_num [evaluatedScores, evaluatedParams, List.range_succ],
        by
        show (-1 : ℚ) ≤ 0
        norm_num⟩)⟩

/-! ### ExpectedImprovement and ProbabilityOfImprovement formulas -/

/-- The gradient-refinement tail of `ExpectedImprovement.compute_proposals`:
`randomProposals` is the random-search baseline,
`optimization = self.params.get('optimization', 'random')`, and `success`,
`refined` are the `result.success` flag and refined point of the
`scipy.optimize.minimize(..., method='BFGS')` call (external oracle).  On
success the source runs `del random_proposals[-1]` (an `IndexError`,
modelled `none`, on an empty list) and
`random_proposals.insert(0, x_min_dict)`; on failure it only logs a warning
and returns the baseline unchanged. -/
def eiComputeProposals {α : Type} (randomProposals : List α)
    (optimization : String) (success : Bool) (refined : α) :
    Option (List α) :=
  if optimization = "random" then some randomProposals
  else if success = false then some randomProposals
  else
    match randomProposals with
    | [] => none
    | _ :: _ => some (refined :: randomProposals.dropLast)


noncomputable section

/-- `ExpectedImprovement._evaluate_vector(x_vec, gp, experiment)` at one
point.  The surrogate's answers there (`gp.predict`,
`gp.predictive_gradients`) enter as `mean`, `variance`, `gradMean`,
`gradVariance` (per coordinate; numpy broadcasts the gradient arithmetic
elementwise), the experiment supplies `xBest = best_candidate.result` and
the direction, and `Phi`/`phi` stand for `scipy.stats.norm().cdf`/`.pdf`.
Returns `(ei_value, ei_gradient)`: both are initialized to `0` and only
overwritten under the `std_dev != 0` guard. -/
def eiEvaluateVector (Phi phi : ℝ → ℝ)
    (tradeoff mean variance gradMean gradVariance xBest : ℝ)
    (minimization : Bool) : ℝ × ℝ :=
  let std_dev := Real.sqrt variance
  let sign : ℝ := if minimization then 1 else -1
  let z_numerator := sign * (xBest - mean + tradeoff)
  if std_dev = 0 then (0, 0)
  else
    let z := z_numerator / std_dev
    let cdf_z := Phi z
    let pdf_z := phi z
    let ei_value := z_numerator * cdf_z + std_dev * pdf_z
    let ei_gradient := (1 / (2 * variance)) * ei_value * gradVariance +
      (-1) * sign * gradMean * cdf_z +
      (-1) * gradVariance * cdf_z * z * (1 / (2 * std_dev))
    (ei_value, ei_gradient)

/-- `ProbabilityOfImprovement.evaluate(x, gp, experiment)`.  `Phi` stands
for `scipy.stats.norm().cdf`.  There is no zero-variance guard in the
source: when `stdv = 0` the expression `(x_best - mean)/stdv` divides by
zero (`ZeroDivisionError` on floats, an invalid operation on arrays),
modelled as `none`. -/
def piEvaluate (Phi : ℝ → ℝ) (mean variance xBest : ℝ)
    (minimization : Bool) : Option ℝ :=
  let stdv := Real.sqrt variance
  if stdv = 0 then none
  else
    let z := (xBest - mean) / stdv
    let cdf := Phi z
    some (if minimization then cdf else 1 - cdf)

/-- C5: `ExpectedImprovement` evaluation returns exactly `(0, 0)` when the
standard deviation `σ = sqrt variance` is `0`, and otherwise its value is
`z_numerator * Φ(z) + σ * φ(z)` with
`z_numerator = sign * (f* - μ + tradeoff)`, `sign = +1` for minimization and
`-1` for maximization, and `z = z_numerator / σ`. -/
theorem c5_expected_improvement_formula (Phi phi : ℝ → ℝ)
    (tradeoff mean variance gradMean gradVariance xBest : ℝ)
    (minimization : Bool) :
    (Real.sqrt variance = 0 →
      eiEvaluateVector Phi phi tradeoff mean variance gradMean gradVariance
        xBest minimization = (0, 0)) ∧
    (Real.sqrt variance ≠ 0 →
      (eiEvaluateVector Phi phi tradeoff mean variance gradMean gradVariance
        xBest minimization).1 =
        (if minimization then (1 : ℝ) else -1) * (xBest - mean + tradeoff) *
          Phi ((if minimization then (1 : ℝ) else -1) *
            (xBest - mean + tradeoff) / Real.sqrt variance) +
        Real.sqrt variance *
          phi ((if minimization then (1 : ℝ) else -1) *
            (xBest - mean + tradeoff) / Real.sqrt variance)) := by
  constructor
  · intro h
    simp [eiEvaluateVector, h]
  · intro h
    simp [eiEvaluateVector, h]

/-- Witness for C5: the zero-variance branch at variance `0` and the formula
branch at variance `1`. -/
theorem c5_expected_improvement_formula_witness :
    eiEvaluateVector (fun x => x) (fun x => x) 0 0 0 0 0 5 true = (0, 0) ∧
    (eiEvaluateVector (fun x => x) (fun x => x) 0 0 1 0 0 5 true).1 =
      (if true then (1 : ℝ) else -1) * (5 - 0 + 0) *
        (fun x => x) ((if true then (1 : ℝ) else -1) * (5 - 0 + 0) /
          Real.sqrt 1) +
      Real.sqrt 1 *
        (fun x => x) ((if true then (1 : ℝ) else -1) * (5 - 0 + 0) /
          Real.sqrt 1) :=
  ⟨(c5_expected_improvement_formula (fun x => x) (fun x => x)
      0 0 0 0 0 5 true).1 (by simp),
   (c5_expected_improvement_formula (fun x => x) (fun x => x)
      0 0 1 0 0 5 true).2 (by simp)⟩

/-- Counterexample to C7 as stated: `ProbabilityOfImprovement.evaluate` has
no zero-variance guard; at surrogate variance `0` its evaluation divides by
the zero standard deviation instead of completing with acquisition score
`0`. -/
theorem c7_counterexample :
    piEvaluate (fun x => x) 0 0 5 true = none ∧
    piEvaluate (fun x => x) 0 0 5 true ≠ some 0 := by
  constructor
  · simp [piEvaluate]
  · simp [piEvaluate]

/-- C7 (amended): evaluating at a point of surrogate variance exactly `0` is
not an error for `ExpectedImprovement`, which yields score `0` and gradient
`0`; `ProbabilityOfImprovement.evaluate`, however, unconditionally divides
by the standard deviation and so divides by zero there, yielding no zero
score. -/
theorem c7_zero_variance_behaviour (Phi phi : ℝ → ℝ)
    (tradeoff mean gradMean gradVariance xBest : ℝ) (variance : ℝ)
    (minimization : Bool) (h : variance = 0) :
    eiEvaluateVector Phi phi tradeoff mean variance gradMean gradVariance
      xBest minimization = (0, 0) ∧
    piEvaluate Phi mean variance xBest minimization = none := by
  subst h
  constructor
  · simp [eiEvaluateVector]
  · simp [piEvaluate]

/-- Witness for C7 at concrete oracles with variance `0`. -/
theorem c7_zero_variance_behaviour_witness :
    eiEvaluateVector (fun x => x) (fun x => x) 0 3 0 2 2 5 false = (0, 0) ∧
    piEvaluate (fun x => x) 3 0 5 false = none :=
  c7_zero_variance_behaviour (fun x => x) (fun x => x) 0 3 2 2 5 0 false rfl

/-- Counterexample to C6 as stated: on BFGS success the refined point does
not replace the baseline's top proposal — the source deletes the **last**
baseline proposal and inserts the refined point in front, so the old top
proposal is still returned, in second place. -/
theorem c6_counterexample :
    eiComputeProposals [0, 1] "bfgs" true 7 = some [7, 0] ∧
    eiComputeProposals [0, 1] "bfgs" true 7 ≠ some (7 :: List.tail [0, 1]) := by
  constructor
  · decide
  · decide

/-- C6 (amended): with gradient refinement configured (optimization mode not
`"random"`), if BFGS converges the refined point becomes the first returned
proposal and the **last** baseline proposal is dropped, the baseline's top
proposal remaining in second place; if BFGS does not converge the baseline
proposals are returned unchanged; and in neither case does non-convergence
surface an error to the caller. -/
theorem c6_bfgs_refinement {α : Type} (randomProposals : List α)
    (optimization : String) (refined : α) :
    (eiComputeProposals randomProposals optimization false refined =
      some randomProposals) ∧
    (optimization ≠ "random" → randomProposals ≠ [] →
      eiComputeProposals randomProposals optimization true refined =
        some (refined :: randomProposals.dropLast)) ∧
    (optimization = "random" →
      eiComputeProposals randomProposals optimization true refined =
        some randomProposals) := by
  refine ⟨?_, ?_, ?_⟩
  · by_cases h : optimization = "random" <;> simp [eiComputeProposals, h]
  · intro h1 h2
    cases randomProposals with
    | nil => exact absurd rfl h2
    | cons x xs => simp [eiComputeProposals, h1]
  · intro h
    simp [eiComputeProposals, h]

/-- Witness for C6 at concrete proposals. -/
theorem c6_bfgs_refinement_witness :
    eiComputeProposals [0, 1] "bfgs" false 7 = some [0, 1] ∧
    eiComputeProposals [0, 1] "bfgs" true 7 =
      some (7 :: List.dropLast [0, 1]) ∧
    eiComputeProposals [0, 1] "random" true 7 = some [0, 1] :=
  ⟨(c6_bfgs_refinement [0, 1] "bfgs" 7).1,
   (c6_bfgs_refinement [0, 1] "bfgs" 7).2.1 (by decide) (by decide),
   (c6_bfgs_refinement [0, 1] "random" 7).2.2 rfl⟩

end

end Apsis
